import Mathlib

/-!
Shallow embedding of the SwimMeet mock API core (src/mock_api/app.py).

Times are parsed into exact rationals (ℚ): the Python code parses race-time
strings with int()/float() and only ever compares and adds the results; on
the decimal literals the API stores, those operations coincide with exact
rational arithmetic, so ℚ is the faithful comparable value domain.
Fallible paths (missing fields, unparseable times) are modelled with
Option/Except; an unhandled Python exception is modelled as ApiError.crash.
Query parameters are Option-valued; Python truthiness of a string parameter
(absent or empty means falsy) is modelled by optTruthy.
-/

namespace SwimMeet

/-! ### Time Codec: time_to_seconds (app.py lines 289-293) -/

/-- Numeric value of a list of decimal digit characters, most significant first. -/
def digitsVal (cs : List Char) : Nat :=
  cs.foldl (fun a c => 10 * a + (c.toNat - 48)) 0

/-- Model of Python str.split(c): splits a character list at every occurrence
of the separator, keeping empty pieces. -/
def splitOnChar (c : Char) : List Char → List (List Char)
  | [] => [[]]
  | x :: xs =>
    let r := splitOnChar c xs
    if x = c then [] :: r
    else
      match r with
      | [] => [[x]]
      | p :: ps => (x :: p) :: ps

/-- Model of Python int(s) restricted to optionally signed decimal digit
strings (the forms the API receives): none when the string is not of
that shape (Python raises ValueError there). -/
def parseIntChars : List Char → Option ℤ
  | '-' :: rest =>
    if rest ≠ [] ∧ rest.all Char.isDigit then some (-(digitsVal rest : ℤ)) else none
  | '+' :: rest =>
    if rest ≠ [] ∧ rest.all Char.isDigit then some ((digitsVal rest : ℤ)) else none
  | cs =>
    if cs ≠ [] ∧ cs.all Char.isDigit then some ((digitsVal cs : ℤ)) else none

/-- Unsigned decimal literal: digits, digits.digits, digits., or .digits. -/
def parseUFloatChars (cs : List Char) : Option ℚ :=
  match splitOnChar '.' cs with
  | [ip] =>
    if ip ≠ [] ∧ ip.all Char.isDigit then some ((digitsVal ip : ℚ)) else none
  | [ip, fp] =>
    if (ip ≠ [] ∨ fp ≠ []) ∧ ip.all Char.isDigit ∧ fp.all Char.isDigit then
      some ((digitsVal ip : ℚ) + (digitsVal fp : ℚ) / (10 : ℚ) ^ fp.length)
    else none
  | _ => none

/-- Model of Python float(s) restricted to optionally signed decimal literals
(the race-time seconds format): none when not of that shape. -/
def parseFloatChars : List Char → Option ℚ
  | '-' :: rest => (parseUFloatChars rest).map (fun q => -q)
  | '+' :: rest => parseUFloatChars rest
  | cs => parseUFloatChars cs

/-- time_to_seconds on the character level: with exactly one colon the two
parts are read as int minutes and float seconds, combined as m*60+s; with
no colon the whole string is read as float seconds; any other shape
(two or more colons, or the tuple-unpack failure) is a parse failure. -/
def timeToSecondsChars (cs : List Char) : Option ℚ :=
  match splitOnChar ':' cs with
  | [t] => parseFloatChars t
  | [m, s] =>
    (parseIntChars m).bind fun mi =>
      (parseFloatChars s).map fun sq => (mi : ℚ) * 60 + sq
  | _ => none

/-- time_to_seconds (app.py lines 289-293). -/
def time_to_seconds (s : String) : Option ℚ :=
  timeToSecondsChars s.data

/-! ### Age Classifier (app.py lines 59-83) -/

/-- The if/elif chain classifying an age into a bucket, exactly as in
handle_swimmers POST. -/
def classify (age : ℤ) : String :=
  if age < 18 then "Youth"
  else if age ≤ 24 then "18-24"
  else if age ≤ 29 then "25-29"
  else if age ≤ 34 then "30-34"
  else if age ≤ 39 then "35-39"
  else if age ≤ 44 then "40-44"
  else if age ≤ 49 then "45-49"
  else if age ≤ 54 then "50-54"
  else if age ≤ 59 then "55-59"
  else if age ≤ 64 then "60-64"
  else if age ≤ 69 then "65-69"
  else "70+"

/-- The spec's age-group table, written from the two-sided ranges of spec
section 4.2 (for comparison with the code's classify). -/
def classifySpecTable (age : ℤ) : String :=
  if age < 18 then "Youth"
  else if 18 ≤ age ∧ age ≤ 24 then "18-24"
  else if 25 ≤ age ∧ age ≤ 29 then "25-29"
  else if 30 ≤ age ∧ age ≤ 34 then "30-34"
  else if 35 ≤ age ∧ age ≤ 39 then "35-39"
  else if 40 ≤ age ∧ age ≤ 44 then "40-44"
  else if 45 ≤ age ∧ age ≤ 49 then "45-49"
  else if 50 ≤ age ∧ age ≤ 54 then "50-54"
  else if 55 ≤ age ∧ age ≤ 59 then "55-59"
  else if 60 ≤ age ∧ age ≤ 64 then "60-64"
  else if 65 ≤ age ∧ age ≤ 69 then "65-69"
  else "70+"

/-! ### Data model -/

/-- Error taxonomy of the HTTP surface: 400 validation errors carry an
error message, 404 not-found errors likewise; crash stands for an
unhandled Python exception (500). -/
inductive ApiError where
  | validation (msg : String)
  | notFound (msg : String)
  | crash
deriving DecidableEq, Repr

/-- A swimmer record as stored in the registry. -/
structure Swimmer where
  id : ℤ
  name : String
  age : ℤ
  gender : String
  team : String
  ageGroup : String
deriving DecidableEq, Repr

/-- A race result as stored in the ledger. -/
structure Race where
  id : ℤ
  swimmer_id : ℤ
  event : String
  time : String
  meet_id : ℤ
  meet_name : Option String
  date : Option String
  isPB : Bool
deriving DecidableEq, Repr

/-- Request body for POST /api/swimmers: the four required fields, each
possibly absent. -/
structure SwimmerInput where
  name : Option String
  age : Option ℤ
  gender : Option String
  team : Option String
deriving DecidableEq, Repr

/-- Request body for PUT /api/swimmers/id: dict.update merges every key
present in the JSON body over the stored record, including id and
ageGroup when the client sends them. -/
structure SwimmerUpdate where
  id : Option ℤ
  name : Option String
  age : Option ℤ
  gender : Option String
  team : Option String
  ageGroup : Option String
deriving DecidableEq, Repr

/-- Request body for POST /api/races. -/
structure RaceInput where
  swimmer_id : Option ℤ
  event : Option String
  time : Option String
  meet_id : Option ℤ
  meet_name : Option String
  date : Option String
deriving DecidableEq, Repr

/-- Python max() over a nonempty list of integers (0 on [], unreachable
because every caller guards with an emptiness test). -/
def listMaxZ : List ℤ → ℤ
  | [] => 0
  | [x] => x
  | x :: y :: xs => max x (listMaxZ (y :: xs))

/-- Python min() over a nonempty list of rationals (0 on [], unreachable
because every caller guards with an emptiness test). -/
def listMinQ : List ℚ → ℚ
  | [] => 0
  | [x] => x
  | x :: y :: xs => min x (listMinQ (y :: xs))

/-- Python truthiness of an optional string parameter: absent or empty
is falsy. -/
def optTruthy : Option String → Bool
  | none => false
  | some s => !(s == "")

/-! ### Swimmer Registry (app.py lines 39-112) -/

/-- Next swimmer id: max existing id + 1, or 1 when the registry is empty
(app.py line 57). -/
def nextSwimmerId (ss : List Swimmer) : ℤ :=
  if ss = [] then 1 else listMaxZ (ss.map (fun s => s.id)) + 1

/-- POST /api/swimmers (app.py lines 48-87): require name, age, gender,
team; assign id; classify age; append. Returns the response together
with the registry after the call. -/
def createSwimmer (inp : SwimmerInput) (ss : List Swimmer) :
    Except ApiError Swimmer × List Swimmer :=
  match inp.name, inp.age, inp.gender, inp.team with
  | some nm, some a, some g, some tm =>
    let s : Swimmer :=
      { id := nextSwimmerId ss, name := nm, age := a, gender := g, team := tm,
        ageGroup := classify a }
    (.ok s, ss ++ [s])
  | _, _, _, _ => (.error (.validation "Missing required fields"), ss)

/-- next((s for s in swimmers if s.id == swimmer_id), None): first record
with the given id. -/
def findSwimmer (sid : ℤ) : List Swimmer → Option Swimmer
  | [] => none
  | s :: rest => if s.id = sid then some s else findSwimmer sid rest

/-- dict.update: every field present in the body overwrites the stored
one; absent fields are untouched. -/
def applyUpdate (u : SwimmerUpdate) (s : Swimmer) : Swimmer :=
  { id := u.id.getD s.id, name := u.name.getD s.name, age := u.age.getD s.age,
    gender := u.gender.getD s.gender, team := u.team.getD s.team,
    ageGroup := u.ageGroup.getD s.ageGroup }

/-- In-place update of the first record with the given id, mirroring the
mutation of the found dict inside the swimmers list. -/
def updateFirst (sid : ℤ) (u : SwimmerUpdate) : List Swimmer → Option (Swimmer × List Swimmer)
  | [] => none
  | s :: rest =>
    if s.id = sid then some (applyUpdate u s, applyUpdate u s :: rest)
    else (updateFirst sid u rest).map (fun p => (p.1, s :: p.2))

/-- PUT /api/swimmers/id (app.py lines 100-105). -/
def updateSwimmer (sid : ℤ) (u : SwimmerUpdate) (ss : List Swimmer) :
    Except ApiError Swimmer × List Swimmer :=
  match updateFirst sid u ss with
  | none => (.error (.notFound "Swimmer not found"), ss)
  | some (s, ss2) => (.ok s, ss2)

/-- Removal of the first record with the given id, mirroring
swimmers.remove(found). -/
def deleteFirst (sid : ℤ) : List Swimmer → Option (List Swimmer)
  | [] => none
  | s :: rest =>
    if s.id = sid then some rest else (deleteFirst sid rest).map (fun l => s :: l)

/-- DELETE /api/swimmers/id (app.py lines 107-112). -/
def deleteSwimmer (sid : ℤ) (ss : List Swimmer) :
    Except ApiError String × List Swimmer :=
  match deleteFirst sid ss with
  | none => (.error (.notFound "Swimmer not found"), ss)
  | some ss2 => (.ok "Swimmer deleted", ss2)

/-! ### Race Ledger (app.py lines 119-168) -/

/-- Next race id: same max+1 rule, scoped to the ledger (app.py line 146). -/
def nextRaceId (rs : List Race) : ℤ :=
  if rs = [] then 1 else listMaxZ (rs.map (fun r => r.id)) + 1

/-- The list comprehension parsing the time of every prior race of the
same swimmer and event; none when any of them fails to parse (Python
would raise there). -/
def parseTimes : List Race → Option (List ℚ)
  | [] => some []
  | r :: rest =>
    (time_to_seconds r.time).bind fun q =>
      (parseTimes rest).map fun qs => q :: qs

/-- POST /api/races (app.py lines 137-168): require swimmer_id, event,
time, meet_id; assign id; compute isPB against the minimum prior parsed
time of the same swimmer and event; default date; append. Returns the
response together with the ledger after the call. -/
def appendRace (today : String) (rin : RaceInput) (races : List Race) :
    Except ApiError Race × List Race :=
  match rin.swimmer_id, rin.event, rin.time, rin.meet_id with
  | some sid, some ev, some t, some mid =>
    match time_to_seconds t with
    | none => (.error .crash, races)
    | some q =>
      match parseTimes (races.filter fun r => decide (r.swimmer_id = sid ∧ r.event = ev)) with
      | none => (.error .crash, races)
      | some qs =>
        let r : Race :=
          { id := nextRaceId races, swimmer_id := sid, event := ev, time := t,
            meet_id := mid, meet_name := rin.meet_name,
            date := some (rin.date.getD today),
            isPB := qs.isEmpty || decide (q < listMinQ qs) }
        (.ok r, races ++ [r])
  | _, _, _, _ => (.error (.validation "Missing required fields"), races)

/-- GET /api/races (app.py lines 122-135): conjunctive filters; the string
parameter is applied when truthy, the integer ones when present. -/
def listRaces (event : Option String) (meet_id swimmer_id : Option ℤ)
    (races : List Race) : List Race :=
  let f1 := if optTruthy event then races.filter (fun r => decide (r.event = event.getD "")) else races
  let f2 := match meet_id with
    | some m => f1.filter (fun r => decide (r.meet_id = m))
    | none => f1
  match swimmer_id with
  | some s => f2.filter (fun r => decide (r.swimmer_id = s))
  | none => f2

/-! ### Ranking Engine (app.py lines 175-233) -/

/-- One value of the best_times dict. -/
structure BestTime where
  time : String
  seconds : ℚ
  meet : String
  date : String
deriving DecidableEq, Repr

/-- Association-list lookup, first match (dict indexing). -/
def lookupA {α : Type} (k : ℤ) : List (ℤ × α) → Option α
  | [] => none
  | p :: rest => if p.1 = k then some p.2 else lookupA k rest

/-- Overwrite the value stored under an existing key, keeping its position
(CPython dicts keep the first-insertion position on overwrite). -/
def overwriteA {α : Type} (k : ℤ) (v : α) : List (ℤ × α) → List (ℤ × α)
  | [] => []
  | p :: rest => if p.1 = k then (p.1, v) :: rest else p :: overwriteA k v rest

/-- The best_times loop (app.py lines 190-201): iterate the event's races
in ledger order; a swimmer id not yet seen is inserted at the end, a
seen one is overwritten only when the new parsed time is strictly
smaller; none models the Python crash on an unparseable time. -/
def bestTimesFold (acc : List (ℤ × BestTime)) : List Race → Option (List (ℤ × BestTime))
  | [] => some acc
  | r :: rest =>
    (time_to_seconds r.time).bind fun q =>
      let bt : BestTime :=
        { time := r.time, seconds := q, meet := r.meet_name.getD "Unknown",
          date := r.date.getD "Unknown" }
      match lookupA r.swimmer_id acc with
      | none => bestTimesFold (acc ++ [(r.swimmer_id, bt)]) rest
      | some old =>
        if q < old.seconds then bestTimesFold (overwriteA r.swimmer_id bt acc) rest
        else bestTimesFold acc rest

/-- One element of the rankings response array. -/
structure RankEntry where
  rank : ℤ
  swimmer_id : ℤ
  name : String
  team : String
  age : ℤ
  ageGroup : String
  time : String
  meet : String
  date : String
deriving DecidableEq, Repr

/-- The rankings-building loop (app.py lines 204-226): iterate best_times
in insertion order, skip ids with no swimmer record, apply the truthy
gender and ageGroup filters, build entries with rank 0. -/
def buildEntries (swimmers : List Swimmer) (gender ageGroup : Option String) :
    List (ℤ × BestTime) → List RankEntry
  | [] => []
  | (sid, bt) :: rest =>
    let tail := buildEntries swimmers gender ageGroup rest
    match findSwimmer sid swimmers with
    | none => tail
    | some s =>
      if optTruthy gender ∧ ¬ s.gender = gender.getD "" then tail
      else if optTruthy ageGroup ∧ ¬ s.ageGroup = ageGroup.getD "" then tail
      else
        { rank := 0, swimmer_id := sid, name := s.name, team := s.team,
          age := s.age, ageGroup := s.ageGroup, time := bt.time,
          meet := bt.meet, date := bt.date } :: tail

/-- The sort key of app.py line 229: the parsed time of the entry (every
entry built by the engine carries a parseable time, proved below; the
default is never reached there). -/
def sortKey (e : RankEntry) : ℚ :=
  (time_to_seconds e.time).getD 0

/-- Stable insertion of an entry after every element whose key is less
than or equal to its own. -/
def insertEntry (e : RankEntry) : List RankEntry → List RankEntry
  | [] => [e]
  | x :: xs => if sortKey x ≤ sortKey e then x :: insertEntry e xs else e :: x :: xs

/-- rankings.sort(key=parsed time): Python list.sort is stable; a stable
sort is extensionally the left-to-right insertion of each element after
its equals. -/
def sortEntries (l : List RankEntry) : List RankEntry :=
  l.foldl (fun acc e => insertEntry e acc) []

/-- The enumerate loop assigning rank = position + 1 (app.py lines 230-231),
generalised over the first rank to recurse. -/
def assignRanks (n : ℤ) : List RankEntry → List RankEntry
  | [] => []
  | e :: rest => { e with rank := n } :: assignRanks (n + 1) rest

/-- GET /api/rankings (app.py lines 175-233). -/
def get_rankings (event gender ageGroup : Option String)
    (swimmers : List Swimmer) (races : List Race) :
    Except ApiError (List RankEntry) :=
  if optTruthy event then
    let event_races := races.filter (fun r => decide (r.event = event.getD ""))
    match bestTimesFold [] event_races with
    | none => .error .crash
    | some bts =>
      .ok (assignRanks 1 (sortEntries (buildEntries swimmers gender ageGroup bts)))
  else .error (.validation "Event parameter required")

/-! ### Personal Bests (app.py lines 240-273) -/

/-- One value of the pbs mapping. -/
structure PBEntry where
  time : String
  meet : String
  date : String
deriving DecidableEq, Repr

/-- The response fields taken from a race by the pbs endpoint. -/
def pbData (r : Race) : PBEntry :=
  { time := r.time, meet := r.meet_name.getD "Unknown", date := r.date.getD "Unknown" }

/-- String-keyed association-list lookup, first match. -/
def lookupS {α : Type} (k : String) : List (String × α) → Option α
  | [] => none
  | p :: rest => if p.1 = k then some p.2 else lookupS k rest

/-- Overwrite under an existing string key, keeping its position. -/
def overwriteS {α : Type} (k : String) (v : α) : List (String × α) → List (String × α)
  | [] => []
  | p :: rest => if p.1 = k then (p.1, v) :: rest else p :: overwriteS k v rest

/-- The pbs loop (app.py lines 250-271): iterate the swimmer's races in
ledger order; the first race of an event seeds the map, a later one
overwrites only when its parsed time is strictly smaller than the
parsed time of the stored entry; none models the crash on an
unparseable time. -/
def pbFold (acc : List (String × PBEntry)) : List Race → Option (List (String × PBEntry))
  | [] => some acc
  | r :: rest =>
    (time_to_seconds r.time).bind fun q =>
      match lookupS r.event acc with
      | none => pbFold (acc ++ [(r.event, pbData r)]) rest
      | some pb =>
        (time_to_seconds pb.time).bind fun pbq =>
          if q < pbq then pbFold (overwriteS r.event (pbData r) acc) rest
          else pbFold acc rest

/-- GET /api/swimmers/id/pbs (app.py lines 240-273). -/
def get_personal_bests (sid : ℤ) (races : List Race) :
    Option (List (String × PBEntry)) :=
  let swimmer_races := races.filter (fun r => decide (r.swimmer_id = sid))
  if swimmer_races = [] then some [] else pbFold [] swimmer_races

/-! ### Full API state, for the frame claims -/

/-- The two mutable collections the claims are about (events are static
reference data). -/
structure ApiState where
  swimmers : List Swimmer
  races : List Race
deriving DecidableEq, Repr

/-- DELETE /api/swimmers/id as a transition on the full state: only the
swimmers list is touched. -/
def deleteSwimmerState (sid : ℤ) (st : ApiState) : Except ApiError String × ApiState :=
  match deleteSwimmer sid st.swimmers with
  | (resp, ss) => (resp, { swimmers := ss, races := st.races })

/-! ### Lemmas about the Time Codec -/

theorem splitOnChar_of_not_mem {c : Char} {l : List Char} (h : c ∉ l) :
    splitOnChar c l = [l] := by
  induction l with
  | nil => rfl
  | cons x xs ih =>
    have hx : ¬ x = c := fun he => h (he ▸ List.mem_cons_self x xs)
    have hxs : c ∉ xs := fun hm => h (List.mem_cons_of_mem x hm)
    simp [splitOnChar, hx, ih hxs]

theorem splitOnChar_append {c : Char} {m rest : List Char} (h : c ∉ m) :
    splitOnChar c (m ++ c :: rest) = m :: splitOnChar c rest := by
  induction m with
  | nil => simp [splitOnChar]
  | cons x xs ih =>
    have hx : ¬ x = c := fun he => h (he ▸ List.mem_cons_self x xs)
    have hxs : c ∉ xs := fun hm => h (List.mem_cons_of_mem x hm)
    simp only [List.cons_append, splitOnChar, if_neg hx, List.append_eq]
    rw [ih hxs]

theorem splitOnChar_ne_nil (c : Char) (l : List Char) : splitOnChar c l ≠ [] := by
  cases l with
  | nil => simp [splitOnChar]
  | cons x xs =>
    simp only [splitOnChar]
    by_cases hx : x = c
    · simp [hx]
    · simp only [hx, if_false]
      rcases hr : splitOnChar c xs with _ | ⟨p, ps⟩ <;> simp

/-- C3: with exactly one colon (string = minutes ++ colon ++ seconds, both
parts colon-free), a valid integer minutes part M and valid float seconds
part S parse to M*60 + S; a colon-free valid float string parses to its
value directly. -/
theorem time_codec_contract (m sec t : List Char) (mi : ℤ) (q q' : ℚ)
    (hm : parseIntChars m = some mi) (hmc : ':' ∉ m)
    (hs : parseFloatChars sec = some q) (hsc : ':' ∉ sec)
    (ht : parseFloatChars t = some q') (htc : ':' ∉ t) :
    time_to_seconds (String.mk (m ++ ':' :: sec)) = some ((mi : ℚ) * 60 + q)
    ∧ time_to_seconds (String.mk t) = some q' := by
  constructor
  · show timeToSecondsChars (m ++ ':' :: sec) = _
    rw [timeToSecondsChars, splitOnChar_append hmc, splitOnChar_of_not_mem hsc]
    simp [hm, hs]
  · show timeToSecondsChars t = _
    rw [timeToSecondsChars, splitOnChar_of_not_mem htc]
    simp [ht]

/-- C3 witness: the contract evaluated at "1:05.25" and ".5". -/
theorem time_codec_contract_witness :
    time_to_seconds (String.mk ['1', ':', '0', '5', '.', '2', '5']) =
      some (((1 : ℤ) : ℚ) * 60 + 21 / 4)
    ∧ time_to_seconds (String.mk ['.', '5']) = some ((1 : ℚ) / 2) :=
  time_codec_contract ['1'] ['0', '5', '.', '2', '5'] ['.', '5'] 1 (21 / 4) (1 / 2)
    (by decide)
    (by decide)
    (by simp +decide [time_to_seconds, timeToSecondsChars, splitOnChar, parseIntChars,
          parseFloatChars, parseUFloatChars, digitsVal]
        norm_num)
    (by decide)
    (by simp +decide [time_to_seconds, timeToSecondsChars, splitOnChar, parseIntChars,
          parseFloatChars, parseUFloatChars, digitsVal]
        norm_num)
    (by decide)

/-! ### C5: age classification at swimmer creation -/

theorem classify_eq_spec_table (a : ℤ) : classify a = classifySpecTable a := by
  by_cases h1 : a < 18
  · simp [classify, classifySpecTable, h1]
  · have h1b : 18 ≤ a := by omega
    by_cases h2 : a ≤ 24
    · simp [classify, classifySpecTable, h1, h1b, h2]
    · have h2b : 25 ≤ a := by omega
      by_cases h3 : a ≤ 29
      · simp [classify, classifySpecTable, h1, h2, h2b, h3]
      · have h3b : 30 ≤ a := by omega
        by_cases h4 : a ≤ 34
        · simp [classify, classifySpecTable, h1, h2, h3, h3b, h4]
        · have h4b : 35 ≤ a := by omega
          by_cases h5 : a ≤ 39
          · simp [classify, classifySpecTable, h1, h2, h3, h4, h4b, h5]
          · have h5b : 40 ≤ a := by omega
            by_cases h6 : a ≤ 44
            · simp [classify, classifySpecTable, h1, h2, h3, h4, h5, h5b, h6]
            · have h6b : 45 ≤ a := by omega
              by_cases h7 : a ≤ 49
              · simp [classify, classifySpecTable, h1, h2, h3, h4, h5, h6, h6b, h7]
              · have h7b : 50 ≤ a := by omega
                by_cases h8 : a ≤ 54
                · simp [classify, classifySpecTable, h1, h2, h3, h4, h5, h6, h7, h7b, h8]
                · have h8b : 55 ≤ a := by omega
                  by_cases h9 : a ≤ 59
                  · simp [classify, classifySpecTable, h1, h2, h3, h4, h5, h6, h7, h8, h8b, h9]
                  · have h9b : 60 ≤ a := by omega
                    by_cases h10 : a ≤ 64
                    · simp [classify, classifySpecTable, h1, h2, h3, h4, h5, h6, h7, h8, h9, h9b, h10]
                    · have h10b : 65 ≤ a := by omega
                      by_cases h11 : a ≤ 69
                      · simp [classify, classifySpecTable, h1, h2, h3, h4, h5, h6, h7, h8, h9, h10,
                          h10b, h11]
                      · simp [classify, classifySpecTable, h1, h2, h3, h4, h5, h6, h7, h8, h9, h10,
                          h11]

/-- C5: the ageGroup stored at swimmer creation is the spec table applied
to the submitted age, and the boundary ages classify as the table says. -/
theorem creation_age_group (inp : SwimmerInput) (ss ss' : List Swimmer) (s : Swimmer) (a : ℤ)
    (hin : inp.age = some a) (ha : 0 ≤ a)
    (h : createSwimmer inp ss = (.ok s, ss')) :
    s.ageGroup = classifySpecTable a
    ∧ classify 17 = "Youth" ∧ classify 18 = "18-24" ∧ classify 24 = "18-24"
    ∧ classify 25 = "25-29" ∧ classify 69 = "65-69" ∧ classify 70 = "70+" := by
  refine ⟨?_, by decide, by decide, by decide, by decide, by decide, by decide⟩
  obtain ⟨n, ag, g, tm⟩ := inp
  cases hin
  cases n <;> cases g <;> cases tm <;> simp [createSwimmer] at h
  obtain ⟨h1, h2⟩ := h
  rw [← h1]
  exact classify_eq_spec_table a

/-- C5 witness: creating a 26-year-old stores ageGroup "25-29". -/
theorem creation_age_group_witness :
    (createSwimmer
        { name := some "Alex Martinez", age := some 26, gender := some "M",
          team := some "Brooklyn Dolphins" } []).1 =
      .ok { id := 1, name := "Alex Martinez", age := 26, gender := "M",
            team := "Brooklyn Dolphins", ageGroup := "25-29" }
    ∧ ("25-29" : String) = classifySpecTable 26 := by
  have h : createSwimmer
      { name := some "Alex Martinez", age := some 26, gender := some "M",
        team := some "Brooklyn Dolphins" } ([] : List Swimmer) =
      (.ok { id := 1, name := "Alex Martinez", age := 26, gender := "M",
             team := "Brooklyn Dolphins", ageGroup := "25-29" },
       [{ id := 1, name := "Alex Martinez", age := 26, gender := "M",
          team := "Brooklyn Dolphins", ageGroup := "25-29" }]) := rfl
  have h2 := creation_age_group _ _ _ _ 26 rfl (by decide) h
  exact ⟨by rw [h], h2.1⟩

/-! ### C6: rankings require the event parameter -/

/-- C6: a rankings query with no event parameter fails with the 400-class
validation error and its message (the computation only reads the two
collections; no mutated registry or ledger is produced). -/
theorem rankings_missing_event (g ag : Option String) (ss : List Swimmer) (rs : List Race) :
    get_rankings none g ag ss rs = .error (.validation "Event parameter required") := rfl

/-! ### C7: race submission with missing fields -/

/-- C7: a race submission missing any of swimmer_id, event, time, meet_id
fails with the validation error and leaves the ledger exactly as it was. -/
theorem append_missing_field (today : String) (rin : RaceInput) (races : List Race)
    (h : rin.swimmer_id = none ∨ rin.event = none ∨ rin.time = none ∨ rin.meet_id = none) :
    appendRace today rin races = (.error (.validation "Missing required fields"), races) := by
  obtain ⟨sid, ev, t, mid, mn, d⟩ := rin
  cases sid <;> cases ev <;> cases t <;> cases mid <;> simp_all [appendRace]

/-- C7 witness: a submission missing time and meet_id is rejected and the
ledger is unchanged. -/
theorem append_missing_field_witness :
    appendRace "2026-02-01"
      { swimmer_id := some 7, event := some "50free", time := none, meet_id := none,
        meet_name := none, date := none } [] =
    (.error (.validation "Missing required fields"), []) :=
  append_missing_field _ _ _ (Or.inr (Or.inr (Or.inl rfl)))

/-! ### C1: the isPB insertion invariant -/

theorem listMinQ_mem : ∀ {l : List ℚ}, l ≠ [] → listMinQ l ∈ l
  | [x], _ => by simp [listMinQ]
  | x :: y :: xs, _ => by
    have ih := listMinQ_mem (l := y :: xs) (by simp)
    rw [show listMinQ (x :: y :: xs) = min x (listMinQ (y :: xs)) from rfl]
    rcases min_choice x (listMinQ (y :: xs)) with h1 | h1 <;> rw [h1]
    · exact List.mem_cons_self _ _
    · exact List.mem_cons_of_mem _ ih

theorem listMinQ_le : ∀ {l : List ℚ} {x : ℚ}, x ∈ l → listMinQ l ≤ x
  | [y], x, hm => by
    simp at hm
    simp [listMinQ, hm]
  | y :: z :: xs, x, hm => by
    rw [show listMinQ (y :: z :: xs) = min y (listMinQ (z :: xs)) from rfl]
    rcases List.mem_cons.mp hm with h | h
    · exact h ▸ min_le_left _ _
    · exact le_trans (min_le_right _ _) (listMinQ_le h)

theorem parseTimes_nil {l : List Race} (h : parseTimes l = some []) : l = [] := by
  cases l with
  | nil => rfl
  | cons r rest =>
    cases ht : time_to_seconds r.time <;> cases hp : parseTimes rest <;>
      simp [parseTimes, ht, hp] at h

theorem parseTimes_forward : ∀ {l : List Race} {qs : List ℚ}, parseTimes l = some qs →
    ∀ {p : Race}, p ∈ l → ∃ qp, time_to_seconds p.time = some qp ∧ qp ∈ qs := by
  intro l
  induction l with
  | nil => intro qs h p hp; simp at hp
  | cons r rest ih =>
    intro qs h p hp
    cases ht : time_to_seconds r.time <;> rw [parseTimes, ht] at h
    · simp at h
    · cases hp2 : parseTimes rest <;> rw [hp2] at h <;> simp at h
      rcases List.mem_cons.mp hp with he | hm
      · exact ⟨_, he ▸ ht, h ▸ List.mem_cons_self _ _⟩
      · obtain ⟨qp, hqp, hmem⟩ := ih hp2 hm
        exact ⟨qp, hqp, h ▸ List.mem_cons_of_mem _ hmem⟩

theorem parseTimes_backward : ∀ {l : List Race} {qs : List ℚ}, parseTimes l = some qs →
    ∀ {q' : ℚ}, q' ∈ qs → ∃ p, p ∈ l ∧ time_to_seconds p.time = some q' := by
  intro l
  induction l with
  | nil =>
    intro qs h q' hq'
    rw [parseTimes] at h
    cases h
    simp at hq'
  | cons r rest ih =>
    intro qs h q' hq'
    cases ht : time_to_seconds r.time <;> rw [parseTimes, ht] at h
    · simp at h
    · cases hp2 : parseTimes rest <;> rw [hp2] at h <;> simp at h
      rcases List.mem_cons.mp (h ▸ hq') with he | hm
      · exact ⟨r, List.mem_cons_self _ _, he ▸ ht⟩
      · obtain ⟨p, hpl, hqp⟩ := ih hp2 hm
        exact ⟨p, List.mem_cons_of_mem _ hpl, hqp⟩

def pbDemoInput (t : String) : RaceInput :=
  { swimmer_id := some 7, event := some "50free", time := some t, meet_id := some 1,
    meet_name := none, date := some "2026-02-01" }

def pbDemoStep (rs : List Race) (t : String) : List Race :=
  (appendRace "2026-02-01" (pbDemoInput t) rs).2

def pbDemoLedger : List Race :=
  ["30.50", "29.80", "30.10", "29.50"].foldl pbDemoStep []

def pbDemoFlags : List Bool := pbDemoLedger.map (fun r => r.isPB)

theorem pbDemoFlags_eq : pbDemoFlags = [true, true, false, true] := by
  simp [pbDemoFlags, pbDemoLedger, pbDemoStep, pbDemoInput, appendRace, nextRaceId,
    parseTimes, listMinQ, time_to_seconds, timeToSecondsChars, splitOnChar, parseIntChars,
    parseFloatChars, parseUFloatChars, digitsVal, listMaxZ]
  norm_num

/-- C1: a successfully appended race has isPB true exactly when its parsed
time is strictly below every prior parsed time of the same swimmer and
event (vacuously when there is none), and the demo sequence
[30.50, 29.80, 30.10, 29.50] gets the isPB flags [true, true, false, true]. -/
theorem isPB_invariant (today : String) (rin : RaceInput) (races : List Race) (r : Race)
    (rs2 : List Race)
    (h : appendRace today rin races = (.ok r, rs2)) :
    (∃ sid ev t q, rin.swimmer_id = some sid ∧ rin.event = some ev ∧ rin.time = some t ∧
       time_to_seconds t = some q ∧ rs2 = races ++ [r] ∧
       (r.isPB = true ↔ ∀ p ∈ races, p.swimmer_id = sid → p.event = ev →
          ∀ qp, time_to_seconds p.time = some qp → q < qp))
    ∧ pbDemoFlags = [true, true, false, true] := by
  refine ⟨?_, pbDemoFlags_eq⟩
  obtain ⟨sido, evo, t0, mido, mn, d⟩ := rin
  cases sido <;> cases evo <;> cases t0 <;> cases mido <;>
    simp only [appendRace, Prod.mk.injEq] at h <;>
    try exact absurd h.1 (by simp)
  rename_i sid ev t mid
  refine ⟨sid, ev, t, ?_⟩
  cases ht : time_to_seconds t <;> rw [ht] at h
  · simp at h
  · rename_i q
    cases hp : parseTimes (races.filter fun p => decide (p.swimmer_id = sid ∧ p.event = ev)) <;>
      rw [hp] at h
    · simp at h
    · rename_i qs
      simp only [Prod.mk.injEq, Except.ok.injEq] at h
      obtain ⟨h1, h2⟩ := h
      cases h1
      refine ⟨q, rfl, rfl, rfl, rfl, h2.symm, ?_⟩
      show (qs.isEmpty || decide (q < listMinQ qs)) = true ↔ _
      constructor
      · intro hPB p hpmem hsid hev qp hqp
        have hpf : p ∈ races.filter fun p => decide (p.swimmer_id = sid ∧ p.event = ev) := by
          rw [List.mem_filter]
          exact ⟨hpmem, by simp [hsid, hev]⟩
        cases hor : qs.isEmpty with
        | true =>
          have hqs : qs = [] := by
            cases qs with
            | nil => rfl
            | cons a b => simp [List.isEmpty] at hor
          rw [hqs] at hp
          rw [parseTimes_nil hp] at hpf
          simp at hpf
        | false =>
          rw [hor, Bool.false_or] at hPB
          have hq : q < listMinQ qs := of_decide_eq_true hPB
          obtain ⟨qp2, hqp2, hqmem⟩ := parseTimes_forward hp hpf
          rw [hqp2] at hqp
          cases hqp
          exact lt_of_lt_of_le hq (listMinQ_le hqmem)
      · intro hall
        cases hqs : qs with
        | nil => simp
        | cons a b =>
          have hne : qs ≠ [] := by rw [hqs]; simp
          obtain ⟨p, hpf, hparse⟩ := parseTimes_backward hp (listMinQ_mem hne)
          rw [List.mem_filter] at hpf
          obtain ⟨hpmem, hcond⟩ := hpf
          have hc := of_decide_eq_true hcond
          have hlt := hall p hpmem hc.1 hc.2 _ hparse
          simp only [List.isEmpty_cons, Bool.false_or]
          rw [← hqs]
          exact decide_eq_true hlt


def pbWitnessRace : Race :=
  { id := 1, swimmer_id := 7, event := "50free", time := "30.50", meet_id := 1,
    meet_name := none, date := some "2026-02-01", isPB := true }

/-- C1 witness: the invariant applied to a first submission on an empty
ledger, which is a PB. -/
theorem isPB_invariant_witness :
    appendRace "2026-02-01" (pbDemoInput "30.50") [] = (.ok pbWitnessRace, [pbWitnessRace])
    ∧ pbWitnessRace.isPB = true := by
  have h : appendRace "2026-02-01" (pbDemoInput "30.50") [] =
      (.ok pbWitnessRace, [pbWitnessRace]) := by
    simp [appendRace, pbDemoInput, pbWitnessRace, nextRaceId, parseTimes, time_to_seconds,
      timeToSecondsChars, splitOnChar, parseFloatChars, parseUFloatChars, digitsVal]
  obtain ⟨sid, ev, t, q, _, _, _, _, _, hiff⟩ := (isPB_invariant _ _ _ _ _ h).1
  refine ⟨h, hiff.mpr ?_⟩
  intro p hp
  simp at hp

/-! ### C8: partial update merge; C9: id uniqueness -/

theorem updateFirst_eq {sid : ℤ} {u : SwimmerUpdate} :
    ∀ {ss : List Swimmer} {r : Swimmer} {ss2 : List Swimmer},
    updateFirst sid u ss = some (r, ss2) →
    ∃ pre s post, ss = pre ++ s :: post ∧ (∀ x ∈ pre, x.id ≠ sid) ∧ s.id = sid ∧
      r = applyUpdate u s ∧ ss2 = pre ++ applyUpdate u s :: post := by
  intro ss
  induction ss with
  | nil => intro r ss2 h; simp [updateFirst] at h
  | cons s rest ih =>
    intro r ss2 h
    by_cases hs : s.id = sid
    · rw [updateFirst, if_pos hs] at h
      obtain ⟨h1, h2⟩ := Prod.mk.injEq _ _ _ _ ▸ Option.some.injEq _ _ ▸ h
      exact ⟨[], s, rest, by simp, by simp, hs, h1.symm, by simp [h2.symm]⟩
    · rw [updateFirst, if_neg hs] at h
      cases hrec : updateFirst sid u rest with
      | none => rw [hrec] at h; simp at h
      | some p =>
        obtain ⟨r0, l0⟩ := p
        rw [hrec] at h
        have h9 : some (r0, s :: l0) = some (r, ss2) := h
        obtain ⟨h1a, h2a⟩ := Prod.mk.injEq _ _ _ _ ▸ Option.some.injEq _ _ ▸ h9
        obtain ⟨pre, s2, post, he, hpre, hsid, hr, hss2⟩ :=
          ih hrec
        refine ⟨s :: pre, s2, post, by simp [he], ?_, hsid, ?_, ?_⟩
        · intro x hx
          rcases List.mem_cons.mp hx with h1 | h1
          · exact h1 ▸ hs
          · exact hpre x h1
        · rw [← h1a]; exact hr
        · rw [← h2a]; simp [hss2]

/-- C8: a successful partial update merges exactly the provided fields over
the stored record: absent fields are untouched, provided fields overwrite,
and ageGroup is never recomputed (when the body has no ageGroup key the
stored one survives, whatever happens to age). -/
theorem update_merges_fields (sid : ℤ) (u : SwimmerUpdate) (ss ss2 : List Swimmer) (r : Swimmer)
    (h : updateSwimmer sid u ss = (.ok r, ss2)) :
    ∃ pre s post, ss = pre ++ s :: post ∧ (∀ x ∈ pre, x.id ≠ sid) ∧ s.id = sid ∧
      ss2 = pre ++ r :: post ∧ r = applyUpdate u s ∧
      (u.name = none → r.name = s.name) ∧ (∀ v, u.name = some v → r.name = v) ∧
      (u.age = none → r.age = s.age) ∧ (∀ v, u.age = some v → r.age = v) ∧
      (u.gender = none → r.gender = s.gender) ∧ (∀ v, u.gender = some v → r.gender = v) ∧
      (u.team = none → r.team = s.team) ∧ (∀ v, u.team = some v → r.team = v) ∧
      (u.id = none → r.id = s.id) ∧
      (u.ageGroup = none → r.ageGroup = s.ageGroup) := by
  cases hf : updateFirst sid u ss with
  | none => simp [updateSwimmer, hf] at h
  | some p =>
    rw [updateSwimmer, hf] at h
    simp only [Prod.mk.injEq, Except.ok.injEq] at h
    obtain ⟨h1, h2⟩ := h
    obtain ⟨pre, s, post, he, hpre, hsid, hr, hss2⟩ := updateFirst_eq hf
    rw [h1] at hr
    rw [h2] at hss2
    refine ⟨pre, s, post, he, hpre, hsid, by rw [hss2, hr], hr, ?_⟩
    rw [hr]
    refine ⟨?_, ?_, ?_, ?_, ?_, ?_, ?_, ?_, ?_, ?_⟩ <;>
      first
        | (intro hnone; simp [applyUpdate, hnone])
        | (intro v hv; simp [applyUpdate, hv])

def demoStored : Swimmer :=
  { id := 3, name := "Casey", age := 30, gender := "F", team := "T", ageGroup := "30-34" }

def demoPatch : SwimmerUpdate :=
  { id := none, name := none, age := some 40, gender := none, team := none, ageGroup := none }

def demoUpdated : Swimmer :=
  { id := 3, name := "Casey", age := 40, gender := "F", team := "T", ageGroup := "30-34" }

/-- C8 witness: updating only the age leaves every other field, including
the stale ageGroup, untouched. -/
theorem update_merges_fields_witness :
    updateSwimmer 3 demoPatch [demoStored] = (.ok demoUpdated, [demoUpdated])
    ∧ demoUpdated.age = 40 ∧ demoUpdated.ageGroup = "30-34"
    ∧ ∃ pre s post, [demoStored] = pre ++ s :: post ∧ (∀ x ∈ pre, x.id ≠ 3) ∧ s.id = 3 ∧
        [demoUpdated] = pre ++ demoUpdated :: post ∧ demoUpdated = applyUpdate demoPatch s ∧
        (demoPatch.name = none → demoUpdated.name = s.name) ∧
        (∀ v, demoPatch.name = some v → demoUpdated.name = v) ∧
        (demoPatch.age = none → demoUpdated.age = s.age) ∧
        (∀ v, demoPatch.age = some v → demoUpdated.age = v) ∧
        (demoPatch.gender = none → demoUpdated.gender = s.gender) ∧
        (∀ v, demoPatch.gender = some v → demoUpdated.gender = v) ∧
        (demoPatch.team = none → demoUpdated.team = s.team) ∧
        (∀ v, demoPatch.team = some v → demoUpdated.team = v) ∧
        (demoPatch.id = none → demoUpdated.id = s.id) ∧
        (demoPatch.ageGroup = none → demoUpdated.ageGroup = s.ageGroup) := by
  have h : updateSwimmer 3 demoPatch [demoStored] = (.ok demoUpdated, [demoUpdated]) := rfl
  exact ⟨h, by decide, by decide, update_merges_fields 3 demoPatch [demoStored] [demoUpdated] demoUpdated h⟩

theorem listMaxZ_ge : ∀ {l : List ℤ} {x : ℤ}, x ∈ l → x ≤ listMaxZ l
  | [y], x, hm => by
    simp at hm
    simp [listMaxZ, hm]
  | y :: z :: xs, x, hm => by
    rw [show listMaxZ (y :: z :: xs) = max y (listMaxZ (z :: xs)) from rfl]
    rcases List.mem_cons.mp hm with h | h
    · exact h ▸ le_max_left _ _
    · exact le_trans (listMaxZ_ge h) (le_max_right _ _)

theorem deleteFirst_sublist {sid : ℤ} :
    ∀ {ss l : List Swimmer}, deleteFirst sid ss = some l → List.Sublist l ss := by
  intro ss
  induction ss with
  | nil => intro l h; simp [deleteFirst] at h
  | cons s rest ih =>
    intro l h
    by_cases hs : s.id = sid
    · rw [deleteFirst, if_pos hs] at h
      cases h
      exact List.sublist_cons_self s rest
    · rw [deleteFirst, if_neg hs] at h
      cases hrec : deleteFirst sid rest with
      | none => rw [hrec] at h; simp at h
      | some l2 =>
        rw [hrec] at h
        have h9 : some (s :: l2) = some l := h
        cases Option.some.injEq _ _ ▸ h9
        exact List.Sublist.cons₂ s (ih hrec)

def c9patch : SwimmerUpdate :=
  { id := some 1, name := none, age := none, gender := none, team := none, ageGroup := none }

def c9alice : Swimmer :=
  { id := 1, name := "A", age := 20, gender := "M", team := "T", ageGroup := "18-24" }

def c9bob : Swimmer :=
  { id := 2, name := "B", age := 21, gender := "F", team := "T", ageGroup := "18-24" }

/-- C9 counterexample: a PUT body carrying an id field is merged like any
other field, so updating swimmer 2 with id 1 leaves two records with id 1:
uniqueness is not preserved by every update. -/
theorem swimmer_id_uniqueness_counterexample :
    (updateSwimmer 2 c9patch [c9alice, c9bob]).1 = .ok { c9bob with id := 1 }
    ∧ ((updateSwimmer 2 c9patch [c9alice, c9bob]).2.map (fun s => s.id)) = [1, 1]
    ∧ ¬ ((updateSwimmer 2 c9patch [c9alice, c9bob]).2.map (fun s => s.id)).Nodup :=
  ⟨rfl, by decide, by decide⟩

/-- C9 amended: uniqueness (pairwise distinct positive ids) is preserved by
create, by delete, and by update whenever the body carries no id field
(create assigns max existing id + 1, or 1 on an empty registry); an update
body with an id field can break it, as the counterexample shows. -/
theorem swimmer_id_uniqueness_amended (inp : SwimmerInput) (sid sid2 : ℤ) (u : SwimmerUpdate)
    (ss : List Swimmer)
    (hnd : (ss.map (fun s => s.id)).Nodup) (hpos : ∀ x ∈ ss, 0 < x.id) :
    (∀ s ss2, createSwimmer inp ss = (.ok s, ss2) →
        s.id = nextSwimmerId ss ∧ ((ss2.map (fun s => s.id)).Nodup ∧ ∀ x ∈ ss2, 0 < x.id))
    ∧ (u.id = none → ((updateSwimmer sid u ss).2.map (fun s => s.id)) = ss.map (fun s => s.id))
    ∧ (((deleteSwimmer sid2 ss).2.map (fun s => s.id)).Nodup
        ∧ ∀ x ∈ (deleteSwimmer sid2 ss).2, 0 < x.id) := by
  refine ⟨?_, ?_, ?_⟩
  · intro s ss2 h
    obtain ⟨n, ag, g, tm⟩ := inp
    cases n <;> cases ag <;> cases g <;> cases tm <;> simp [createSwimmer] at h
    obtain ⟨h1, h2⟩ := h
    rw [← h1]
    refine ⟨rfl, ?_⟩
    rw [← h2]
    cases hss : ss with
    | nil =>
      constructor
      · simp [nextSwimmerId]
      · intro x hx
        simp at hx
        rw [hx]
        simp [nextSwimmerId]
    | cons a rest =>
      have hne : ss ≠ [] := by rw [hss]; simp
      have hfresh : ∀ x ∈ ss, x.id < nextSwimmerId ss := by
        intro x hx
        have h10 : x.id ≤ listMaxZ (ss.map (fun s => s.id)) :=
          listMaxZ_ge (List.mem_map_of_mem _ hx)
        rw [nextSwimmerId, if_neg hne]
        omega
      rw [← hss]
      constructor
      · rw [List.map_append]
        rw [List.nodup_append]
        refine ⟨hnd, by simp, ?_⟩
        intro y hy
        simp only [List.map_cons, List.map_nil, List.mem_cons, List.not_mem_nil, or_false]
        obtain ⟨x, hx, hxy⟩ := List.mem_map.mp hy
        intro hcontra
        have := hfresh x hx
        rw [hxy] at this
        rw [hcontra] at this
        exact lt_irrefl _ this
      · intro x hx
        rcases List.mem_append.mp hx with h1 | h1
        · exact hpos x h1
        · simp at h1
          rw [h1]
          show 0 < nextSwimmerId ss
          obtain ⟨y, hy⟩ := List.exists_mem_of_ne_nil ss hne
          have hp1 := hpos y hy
          have hp2 := hfresh y hy
          omega
  · intro hid
    cases hf : updateFirst sid u ss with
    | none => simp [updateSwimmer, hf]
    | some p =>
      rw [updateSwimmer, hf]
      obtain ⟨pre, s, post, he, hpre, hsid, hr, hss2⟩ := updateFirst_eq hf
      rw [hss2, he]
      simp [applyUpdate, hid]
  · cases hf : deleteFirst sid2 ss with
    | none =>
      rw [deleteSwimmer, hf]
      exact ⟨hnd, hpos⟩
    | some l =>
      rw [deleteSwimmer, hf]
      have hsub := deleteFirst_sublist hf
      exact ⟨List.Nodup.sublist (List.Sublist.map (fun s => s.id) hsub) hnd,
        fun x hx => hpos x (hsub.mem hx)⟩

def c9newcomer : SwimmerInput :=
  { name := some "N", age := some 30, gender := some "M", team := some "T" }

def c9rename : SwimmerUpdate :=
  { id := none, name := some "Z", age := none, gender := none, team := none, ageGroup := none }

/-- C9 witness: the amended preservation statement at a concrete registry. -/
theorem swimmer_id_uniqueness_amended_witness :
    (([c9alice, c9bob].map (fun s => s.id)).Nodup ∧ ∀ x ∈ [c9alice, c9bob], 0 < x.id)
    ∧ ((∀ s ss2, createSwimmer c9newcomer [c9alice, c9bob] = (.ok s, ss2) →
          s.id = nextSwimmerId [c9alice, c9bob]
          ∧ ((ss2.map (fun s => s.id)).Nodup ∧ ∀ x ∈ ss2, 0 < x.id))
       ∧ (c9rename.id = none →
            ((updateSwimmer 2 c9rename [c9alice, c9bob]).2.map (fun s => s.id)) =
              [c9alice, c9bob].map (fun s => s.id))
       ∧ (((deleteSwimmer 1 [c9alice, c9bob]).2.map (fun s => s.id)).Nodup
          ∧ ∀ x ∈ (deleteSwimmer 1 [c9alice, c9bob]).2, 0 < x.id)) :=
  ⟨⟨by decide, by decide⟩,
    swimmer_id_uniqueness_amended c9newcomer 2 1 c9rename [c9alice, c9bob]
      (by decide) (by decide)⟩

/-! ### C2: rankings are sorted, stably, with ranks 1..N -/

theorem mem_insertEntry {x e : RankEntry} :
    ∀ {l : List RankEntry}, x ∈ insertEntry e l ↔ x = e ∨ x ∈ l := by
  intro l
  induction l with
  | nil => simp [insertEntry]
  | cons y ys ih =>
    rw [insertEntry]
    by_cases hc : sortKey y ≤ sortKey e
    · rw [if_pos hc]
      constructor
      · intro hm
        rcases List.mem_cons.mp hm with h1 | h1
        · exact Or.inr (h1 ▸ List.mem_cons_self _ _)
        · rcases ih.mp h1 with h2 | h2
          · exact Or.inl h2
          · exact Or.inr (List.mem_cons_of_mem _ h2)
      · intro hm
        rcases hm with h1 | h1
        · exact List.mem_cons_of_mem _ (ih.mpr (Or.inl h1))
        · rcases List.mem_cons.mp h1 with h2 | h2
          · exact h2 ▸ List.mem_cons_self _ _
          · exact List.mem_cons_of_mem _ (ih.mpr (Or.inr h2))
    · rw [if_neg hc]
      simp [List.mem_cons]

theorem pairwise_insertEntry {e : RankEntry} :
    ∀ {l : List RankEntry}, List.Pairwise (fun a b => sortKey a ≤ sortKey b) l →
    List.Pairwise (fun a b => sortKey a ≤ sortKey b) (insertEntry e l) := by
  intro l
  induction l with
  | nil => intro _; simp [insertEntry]
  | cons y ys ih =>
    intro hp
    obtain ⟨hy, hys⟩ := List.pairwise_cons.mp hp
    rw [insertEntry]
    by_cases hc : sortKey y ≤ sortKey e
    · rw [if_pos hc]
      refine List.pairwise_cons.mpr ⟨?_, ih hys⟩
      intro z hz
      rcases mem_insertEntry.mp hz with h1 | h1
      · exact h1 ▸ hc
      · exact hy z h1
    · rw [if_neg hc]
      refine List.pairwise_cons.mpr ⟨?_, hp⟩
      intro z hz
      have he : sortKey e ≤ sortKey y := le_of_not_le hc
      rcases List.mem_cons.mp hz with h1 | h1
      · exact h1 ▸ he
      · exact le_trans he (hy z h1)

theorem pairwise_sortAccum :
    ∀ (l acc : List RankEntry), List.Pairwise (fun a b => sortKey a ≤ sortKey b) acc →
    List.Pairwise (fun a b => sortKey a ≤ sortKey b)
      (List.foldl (fun a e => insertEntry e a) acc l) := by
  intro l
  induction l with
  | nil => intro acc h; simpa using h
  | cons e l' ih =>
    intro acc h
    exact ih _ (pairwise_insertEntry h)

theorem pairwise_sortEntries (l : List RankEntry) :
    List.Pairwise (fun a b => sortKey a ≤ sortKey b) (sortEntries l) :=
  pairwise_sortAccum l [] (by simp)

theorem mem_sortAccum {x : RankEntry} :
    ∀ {l acc : List RankEntry},
    x ∈ List.foldl (fun a e => insertEntry e a) acc l ↔ x ∈ acc ∨ x ∈ l := by
  intro l
  induction l with
  | nil => intro acc; simp
  | cons e l' ih =>
    intro acc
    rw [List.foldl_cons, ih]
    rw [mem_insertEntry]
    simp [List.mem_cons]
    tauto

theorem mem_sortEntries {x : RankEntry} {l : List RankEntry} :
    x ∈ sortEntries l ↔ x ∈ l := by
  rw [sortEntries, mem_sortAccum]
  simp

theorem filter_key_eq_nil {q : ℚ} {x : RankEntry} {xs : List RankEntry}
    (hp : List.Pairwise (fun a b => sortKey a ≤ sortKey b) (x :: xs))
    (hlt : q < sortKey x) :
    (x :: xs).filter (fun y => decide (sortKey y = q)) = [] := by
  rw [List.filter_eq_nil_iff]
  intro a ha
  obtain ⟨hx, _⟩ := List.pairwise_cons.mp hp
  have : sortKey x ≤ sortKey a := by
    rcases List.mem_cons.mp ha with h1 | h1
    · exact h1 ▸ le_refl _
    · exact hx a h1
  simp only [decide_eq_true_eq]
  intro he
  rw [he] at this
  exact absurd (lt_of_lt_of_le hlt this) (lt_irrefl q)

theorem filter_insertEntry {q : ℚ} {e : RankEntry} :
    ∀ {l : List RankEntry}, List.Pairwise (fun a b => sortKey a ≤ sortKey b) l →
    (insertEntry e l).filter (fun y => decide (sortKey y = q)) =
      l.filter (fun y => decide (sortKey y = q))
        ++ (if sortKey e = q then [e] else []) := by
  intro l
  induction l with
  | nil =>
    intro _
    rw [insertEntry]
    by_cases hq : sortKey e = q
    · simp [List.filter, hq]
    · simp [List.filter, hq]
  | cons x xs ih =>
    intro hp
    obtain ⟨hx, hxs⟩ := List.pairwise_cons.mp hp
    rw [insertEntry]
    by_cases hc : sortKey x ≤ sortKey e
    · rw [if_pos hc]
      rw [List.filter_cons, List.filter_cons]
      by_cases hpx : sortKey x = q
      · simp only [hpx, decide_True, if_true]
        rw [ih hxs]
        simp
      · simp only [hpx, decide_False, if_false]
        exact ih hxs
    · rw [if_neg hc]
      have he : sortKey e ≤ sortKey x := le_of_not_le hc
      by_cases hq : sortKey e = q
      · have hlt : q < sortKey x := by
          rcases lt_or_eq_of_le he with h1 | h1
          · exact hq ▸ h1
          · exact absurd (h1 ▸ le_refl (sortKey e)) hc
        rw [List.filter_cons]
        simp only [hq, decide_True, if_true]
        rw [filter_key_eq_nil hp hlt]
        simp
      · rw [List.filter_cons]
        simp only [hq, decide_False, if_false, if_neg hq]
        simp

theorem filter_sortAccum {q : ℚ} :
    ∀ (l acc : List RankEntry), List.Pairwise (fun a b => sortKey a ≤ sortKey b) acc →
    (List.foldl (fun a e => insertEntry e a) acc l).filter (fun y => decide (sortKey y = q)) =
      acc.filter (fun y => decide (sortKey y = q)) ++ l.filter (fun y => decide (sortKey y = q)) := by
  intro l
  induction l with
  | nil => intro acc h; simp
  | cons e l' ih =>
    intro acc h
    rw [List.foldl_cons, ih _ (pairwise_insertEntry h), filter_insertEntry h]
    rw [List.filter_cons, List.append_assoc]
    by_cases hq : sortKey e = q
    · simp only [hq, decide_True, if_true]
      simp
    · simp only [hq, decide_False, if_false, if_neg hq]
      simp

theorem filter_sortEntries (pre : List RankEntry) (q : ℚ) :
    (sortEntries pre).filter (fun y => decide (sortKey y = q)) =
      pre.filter (fun y => decide (sortKey y = q)) := by
  rw [sortEntries, filter_sortAccum pre [] (by simp)]
  simp

theorem assignRanks_length : ∀ (l : List RankEntry) (n : ℤ),
    (assignRanks n l).length = l.length := by
  intro l
  induction l with
  | nil => intro n; rfl
  | cons e l' ih => intro n; simp [assignRanks, ih]

theorem assignRanks_get_rank :
    ∀ (l : List RankEntry) (n : ℤ) (i : Nat) (h : i < (assignRanks n l).length),
    ((assignRanks n l).get ⟨i, h⟩).rank = n + (i : ℤ) := by
  intro l
  induction l with
  | nil => intro n i h; simp [assignRanks] at h
  | cons e l' ih =>
    intro n i h
    cases i with
    | zero => simp [assignRanks]
    | succ j =>
      have h2 : j < (assignRanks (n + 1) l').length := by
        rw [assignRanks_length] at h ⊢
        simp at h
        omega
      have hg : (assignRanks n (e :: l')).get ⟨j + 1, h⟩ = (assignRanks (n + 1) l').get ⟨j, h2⟩ :=
        rfl
      rw [hg, ih (n + 1) j h2]
      push_cast
      ring

theorem assignRanks_mem :
    ∀ {l : List RankEntry} {n : ℤ} {x : RankEntry}, x ∈ assignRanks n l →
    ∃ y ∈ l, x.time = y.time ∧ x.swimmer_id = y.swimmer_id := by
  intro l
  induction l with
  | nil => intro n x h; simp [assignRanks] at h
  | cons e l' ih =>
    intro n x h
    rw [show assignRanks n (e :: l') = { e with rank := n } :: assignRanks (n + 1) l' from rfl] at h
    rcases List.mem_cons.mp h with h1 | h1
    · exact ⟨e, List.mem_cons_self _ _, by rw [h1], by rw [h1]⟩
    · obtain ⟨y, hy, h2⟩ := ih h1
      exact ⟨y, List.mem_cons_of_mem _ hy, h2⟩

theorem pairwise_assignRanks :
    ∀ {l : List RankEntry} {n : ℤ}, List.Pairwise (fun a b => sortKey a ≤ sortKey b) l →
    List.Pairwise (fun a b => sortKey a ≤ sortKey b) (assignRanks n l) := by
  intro l
  induction l with
  | nil => intro n _; simp [assignRanks]
  | cons e l' ih =>
    intro n hp
    obtain ⟨he, hl⟩ := List.pairwise_cons.mp hp
    rw [show assignRanks n (e :: l') = { e with rank := n } :: assignRanks (n + 1) l' from rfl]
    refine List.pairwise_cons.mpr ⟨?_, ih hl⟩
    intro x hx
    obtain ⟨y, hy, ht, _⟩ := assignRanks_mem hx
    show sortKey { e with rank := n } ≤ sortKey x
    rw [show sortKey { e with rank := n } = sortKey e from rfl]
    rw [show sortKey x = sortKey y from by rw [sortKey, sortKey, ht]]
    exact he y hy


theorem mem_overwriteA {α : Type} {k : ℤ} {v : α} {kv : ℤ × α} :
    ∀ {l : List (ℤ × α)}, kv ∈ overwriteA k v l → kv ∈ l ∨ kv.2 = v := by
  intro l
  induction l with
  | nil => intro h; simp [overwriteA] at h
  | cons p rest ih =>
    intro h
    rw [overwriteA] at h
    by_cases hk : p.1 = k
    · rw [if_pos hk] at h
      rcases List.mem_cons.mp h with h1 | h1
      · exact Or.inr (by rw [h1])
      · exact Or.inl (List.mem_cons_of_mem _ h1)
    · rw [if_neg hk] at h
      rcases List.mem_cons.mp h with h1 | h1
      · exact Or.inl (h1 ▸ List.mem_cons_self _ _)
      · rcases ih h1 with h2 | h2
        · exact Or.inl (List.mem_cons_of_mem _ h2)
        · exact Or.inr h2

theorem btf_parses :
    ∀ {rs : List Race} {acc res : List (ℤ × BestTime)},
    bestTimesFold acc rs = some res →
    (∀ kv ∈ acc, time_to_seconds kv.2.time = some kv.2.seconds) →
    ∀ kv ∈ res, time_to_seconds kv.2.time = some kv.2.seconds := by
  intro rs
  induction rs with
  | nil =>
    intro acc res h hacc
    rw [bestTimesFold] at h
    cases h
    exact hacc
  | cons r rest ih =>
    intro acc res h hacc
    rw [bestTimesFold] at h
    cases ht : time_to_seconds r.time with
    | none => rw [ht] at h; simp at h
    | some q =>
      rw [ht] at h
      simp only [Option.bind_some] at h
      cases hl : lookupA r.swimmer_id acc with
      | none =>
        rw [hl] at h
        refine ih h ?_
        intro kv hkv
        rcases List.mem_append.mp hkv with h1 | h1
        · exact hacc kv h1
        · simp at h1
          rw [h1]
          exact ht
      | some old =>
        rw [hl] at h
        dsimp only at h
        rw [Option.some_bind] at h
        by_cases hq : q < old.seconds
        · rw [if_pos hq] at h
          refine ih h ?_
          intro kv hkv
          rcases mem_overwriteA hkv with h1 | h1
          · exact hacc kv h1
          · rw [h1]
            exact ht
        · rw [if_neg hq] at h
          exact ih h hacc

theorem mem_buildEntries {ss : List Swimmer} {g ag : Option String} {e : RankEntry} :
    ∀ {bts : List (ℤ × BestTime)}, e ∈ buildEntries ss g ag bts →
    ∃ sid bt s, (sid, bt) ∈ bts ∧ findSwimmer sid ss = some s ∧
      e.swimmer_id = sid ∧ e.time = bt.time := by
  intro bts
  induction bts with
  | nil => intro h; simp [buildEntries] at h
  | cons p rest ih =>
    intro h
    obtain ⟨sid, bt⟩ := p
    rw [buildEntries] at h
    cases hf : findSwimmer sid ss with
    | none =>
      rw [hf] at h
      obtain ⟨sid2, bt2, s2, hm, hfs, hsid, ht⟩ := ih h
      exact ⟨sid2, bt2, s2, List.mem_cons_of_mem _ hm, hfs, hsid, ht⟩
    | some s =>
      rw [hf] at h
      dsimp only at h
      by_cases h1 : optTruthy g ∧ ¬ s.gender = g.getD ""
      · rw [if_pos h1] at h
        obtain ⟨sid2, bt2, s2, hm, hfs, hsid, ht⟩ := ih h
        exact ⟨sid2, bt2, s2, List.mem_cons_of_mem _ hm, hfs, hsid, ht⟩
      · rw [if_neg h1] at h
        by_cases h2 : optTruthy ag ∧ ¬ s.ageGroup = ag.getD ""
        · rw [if_pos h2] at h
          obtain ⟨sid2, bt2, s2, hm, hfs, hsid, ht⟩ := ih h
          exact ⟨sid2, bt2, s2, List.mem_cons_of_mem _ hm, hfs, hsid, ht⟩
        · rw [if_neg h2] at h
          rcases List.mem_cons.mp h with h3 | h3
          · exact ⟨sid, bt, s, List.mem_cons_self _ _, hf, by rw [h3], by rw [h3]⟩
          · obtain ⟨sid2, bt2, s2, hm, hfs, hsid, ht⟩ := ih h3
            exact ⟨sid2, bt2, s2, List.mem_cons_of_mem _ hm, hfs, hsid, ht⟩

/-- C2: every successful rankings response is sorted with non-decreasing
parsed times (every entry's time parses, and its sort key is that parsed
value), the rank at position i is i+1 (so ranks are exactly 1..N), and the
engine's sort keeps entries of equal key in their pre-sort order (filtering
the sorted list by any key value returns the pre-sort sublist unchanged). -/
theorem rankings_sorted_ranked (ev g ag : Option String) (ss : List Swimmer) (races : List Race)
    (l : List RankEntry) (h : get_rankings ev g ag ss races = .ok l) :
    List.Pairwise (fun a b => sortKey a ≤ sortKey b) l
    ∧ (∀ e ∈ l, time_to_seconds e.time = some (sortKey e))
    ∧ (∀ (i : Nat) (hi : i < l.length), (l.get ⟨i, hi⟩).rank = (i : ℤ) + 1)
    ∧ (∀ (pre : List RankEntry) (q : ℚ),
        (sortEntries pre).filter (fun y => decide (sortKey y = q)) =
          pre.filter (fun y => decide (sortKey y = q))) := by
  rw [get_rankings] at h
  by_cases he : optTruthy ev
  · rw [if_pos he] at h
    dsimp only at h
    cases hbt : bestTimesFold [] (races.filter fun r => decide (r.event = ev.getD "")) with
    | none => rw [hbt] at h; simp at h
    | some bts =>
      rw [hbt] at h
      simp only [Except.ok.injEq] at h
      subst h
      refine ⟨pairwise_assignRanks (pairwise_sortEntries _), ?_, ?_, filter_sortEntries⟩
      · intro e hemem
        obtain ⟨y, hy, ht, _⟩ := assignRanks_mem hemem
        have hy2 : y ∈ buildEntries ss g ag bts := mem_sortEntries.mp hy
        obtain ⟨sid, bt, s, hbts, _, _, hytime⟩ := mem_buildEntries hy2
        have hparse := btf_parses hbt (by simp) (sid, bt) hbts
        have hfact : time_to_seconds e.time = some bt.seconds := by
          rw [ht, hytime]; exact hparse
        have hkey : sortKey e = bt.seconds := by
          rw [sortKey, hfact]; rfl
        rw [hfact, hkey]
      · intro i hi
        rw [assignRanks_get_rank _ 1 i hi]
        ring
  · rw [if_neg he] at h
    simp at h

def wAlex : Swimmer :=
  { id := 7, name := "Alex Martinez", age := 26, gender := "M", team := "Brooklyn Dolphins",
    ageGroup := "25-29" }

def wRace : Race :=
  { id := 1, swimmer_id := 7, event := "50free", time := "25.50", meet_id := 1,
    meet_name := some "Brooklyn Winter Championship", date := some "2026-01-15", isPB := true }

def wEntry : RankEntry :=
  { rank := 1, swimmer_id := 7, name := "Alex Martinez", team := "Brooklyn Dolphins",
    age := 26, ageGroup := "25-29", time := "25.50",
    meet := "Brooklyn Winter Championship", date := "2026-01-15" }

/-- C2 witness: the invariant applied to a one-swimmer, one-race state. -/
theorem rankings_sorted_ranked_witness :
    get_rankings (some "50free") none none [wAlex] [wRace] = .ok [wEntry]
    ∧ (List.Pairwise (fun a b => sortKey a ≤ sortKey b) [wEntry]
       ∧ (∀ e ∈ [wEntry], time_to_seconds e.time = some (sortKey e))
       ∧ (∀ (i : Nat) (hi : i < [wEntry].length), ([wEntry].get ⟨i, hi⟩).rank = (i : ℤ) + 1)
       ∧ (∀ (pre : List RankEntry) (q : ℚ),
            (sortEntries pre).filter (fun y => decide (sortKey y = q)) =
              pre.filter (fun y => decide (sortKey y = q)))) := by
  have h : get_rankings (some "50free") none none [wAlex] [wRace] = .ok [wEntry] := by
    simp [get_rankings, optTruthy, bestTimesFold, buildEntries, sortEntries, insertEntry,
      assignRanks, findSwimmer, lookupA, wAlex, wRace, wEntry, time_to_seconds,
      timeToSecondsChars, splitOnChar, parseIntChars, parseFloatChars, parseUFloatChars,
      digitsVal]
  exact ⟨h, rankings_sorted_ranked (some "50free") none none [wAlex] [wRace] [wEntry] h⟩

/-! ### C4: personal bests are the per-event earliest minima -/

/-- The comparison key of a race in the pbs computation: its parsed time
(every race reaching a comparison has a parseable time). -/
def qkey (r : Race) : ℚ :=
  (time_to_seconds r.time).getD 0

/-- Left-to-right selection of the per-list minimum-key race, keeping the
current holder on ties: exactly the replacement discipline of the pbs
loop projected onto one event. -/
def runMin : Option Race → List Race → Option Race
  | cur, [] => cur
  | none, r :: rest => runMin (some r) rest
  | some b, r :: rest =>
    if qkey r < qkey b then runMin (some r) rest else runMin (some b) rest

theorem runMin_some_ne_none :
    ∀ {l : List Race} {b : Race}, runMin (some b) l ≠ none := by
  intro l
  induction l with
  | nil => intro b h; simp [runMin] at h
  | cons r rest ih =>
    intro b h
    rw [runMin] at h
    by_cases hc : qkey r < qkey b
    · rw [if_pos hc] at h; exact ih h
    · rw [if_neg hc] at h; exact ih h

theorem runMin_none_nil {l : List Race} (h : runMin none l = none) : l = [] := by
  cases l with
  | nil => rfl
  | cons r rest =>
    rw [runMin] at h
    exact absurd h runMin_some_ne_none

theorem runMin_mem :
    ∀ {l : List Race} {cur : Option Race} {b : Race}, runMin cur l = some b →
    b ∈ l ∨ cur = some b := by
  intro l
  induction l with
  | nil => intro cur b h; rw [runMin] at h; exact Or.inr h
  | cons r rest ih =>
    intro cur b h
    cases cur with
    | none =>
      rw [runMin] at h
      rcases ih h with h1 | h1
      · exact Or.inl (List.mem_cons_of_mem _ h1)
      · rw [Option.some.injEq] at h1
        exact Or.inl (h1 ▸ List.mem_cons_self _ _)
    | some c =>
      rw [runMin] at h
      by_cases hc : qkey r < qkey c
      · rw [if_pos hc] at h
        rcases ih h with h1 | h1
        · exact Or.inl (List.mem_cons_of_mem _ h1)
        · rw [Option.some.injEq] at h1
          exact Or.inl (h1 ▸ List.mem_cons_self _ _)
      · rw [if_neg hc] at h
        rcases ih h with h1 | h1
        · exact Or.inl (List.mem_cons_of_mem _ h1)
        · exact Or.inr h1

theorem runMin_le :
    ∀ {l : List Race} {cur : Option Race} {b : Race}, runMin cur l = some b →
    (∀ x ∈ l, qkey b ≤ qkey x) ∧ (∀ c, cur = some c → qkey b ≤ qkey c) := by
  intro l
  induction l with
  | nil =>
    intro cur b h
    rw [runMin] at h
    exact ⟨by simp, fun c hc => by rw [hc] at h; rw [Option.some.injEq] at h; rw [h]⟩
  | cons r rest ih =>
    intro cur b h
    cases cur with
    | none =>
      rw [runMin] at h
      obtain ⟨h1, h2⟩ := ih h
      have hbr : qkey b ≤ qkey r := h2 r rfl
      refine ⟨?_, by simp⟩
      intro x hx
      rcases List.mem_cons.mp hx with h3 | h3
      · exact h3 ▸ hbr
      · exact h1 x h3
    | some c =>
      rw [runMin] at h
      by_cases hc : qkey r < qkey c
      · rw [if_pos hc] at h
        obtain ⟨h1, h2⟩ := ih h
        have hbr : qkey b ≤ qkey r := h2 r rfl
        refine ⟨?_, ?_⟩
        · intro x hx
          rcases List.mem_cons.mp hx with h3 | h3
          · exact h3 ▸ hbr
          · exact h1 x h3
        · intro c2 hc2
          rw [Option.some.injEq] at hc2
          exact le_trans hbr (le_of_lt (hc2 ▸ hc))
      · rw [if_neg hc] at h
        obtain ⟨h1, h2⟩ := ih h
        have hbc : qkey b ≤ qkey c := h2 c rfl
        refine ⟨?_, ?_⟩
        · intro x hx
          rcases List.mem_cons.mp hx with h3 | h3
          · exact h3 ▸ le_trans hbc (le_of_not_lt hc)
          · exact h1 x h3
        · intro c2 hc2
          rw [Option.some.injEq] at hc2
          exact hc2 ▸ hbc

theorem runMin_append_one :
    ∀ {l : List Race} {cur : Option Race} {r : Race},
    runMin cur (l ++ [r]) =
      match runMin cur l with
      | none => some r
      | some b => if qkey r < qkey b then some r else some b := by
  intro l
  induction l with
  | nil =>
    intro cur r
    cases cur with
    | none => rfl
    | some b =>
      show runMin (some b) ([] ++ [r]) = if qkey r < qkey b then some r else some b
      rw [List.nil_append, runMin]
      by_cases hc : qkey r < qkey b
      · rw [if_pos hc, if_pos hc]; rfl
      · rw [if_neg hc, if_neg hc]; rfl
  | cons x l' ih =>
    intro cur r
    rw [List.cons_append]
    cases cur with
    | none =>
      rw [runMin, ih]
      rw [show runMin none (x :: l') = runMin (some x) l' from rfl]
    | some c =>
      rw [runMin]
      by_cases hc : qkey x < qkey c
      · rw [if_pos hc, ih]
        rw [show runMin (some c) (x :: l') =
          if qkey x < qkey c then runMin (some x) l' else runMin (some c) l' from rfl]
        rw [if_pos hc]
      · rw [if_neg hc, ih]
        rw [show runMin (some c) (x :: l') =
          if qkey x < qkey c then runMin (some x) l' else runMin (some c) l' from rfl]
        rw [if_neg hc]


theorem lookupS_append_some {α : Type} {k : String} {v : α} :
    ∀ {l l2 : List (String × α)}, lookupS k l = some v → lookupS k (l ++ l2) = some v := by
  intro l
  induction l with
  | nil => intro l2 h; simp [lookupS] at h
  | cons p rest ih =>
    intro l2 h
    rw [lookupS] at h
    rw [List.cons_append, lookupS]
    by_cases hk : p.1 = k
    · rw [if_pos hk] at h ⊢; exact h
    · rw [if_neg hk] at h ⊢; exact ih h

theorem lookupS_append_none {α : Type} {k : String} :
    ∀ {l l2 : List (String × α)}, lookupS k l = none →
    lookupS k (l ++ l2) = lookupS k l2 := by
  intro l
  induction l with
  | nil => intro l2 _; rfl
  | cons p rest ih =>
    intro l2 h
    rw [lookupS] at h
    rw [List.cons_append, lookupS]
    by_cases hk : p.1 = k
    · rw [if_pos hk] at h; exact absurd h (by simp)
    · rw [if_neg hk] at h ⊢; exact ih h

theorem lookupS_overwriteS_self {α : Type} {k : String} {v v2 : α} :
    ∀ {l : List (String × α)}, lookupS k l = some v2 →
    lookupS k (overwriteS k v l) = some v := by
  intro l
  induction l with
  | nil => intro h; simp [lookupS] at h
  | cons p rest ih =>
    intro h
    rw [lookupS] at h
    rw [overwriteS]
    by_cases hk : p.1 = k
    · rw [if_pos hk, lookupS, if_pos hk]
    · rw [if_neg hk] at h
      rw [if_neg hk, lookupS, if_neg hk]
      exact ih h

theorem lookupS_overwriteS_other {α : Type} {k k2 : String} {v : α} (hne : k2 ≠ k) :
    ∀ {l : List (String × α)}, lookupS k2 (overwriteS k v l) = lookupS k2 l := by
  intro l
  induction l with
  | nil => rfl
  | cons p rest ih =>
    rw [overwriteS]
    by_cases hk : p.1 = k
    · rw [if_pos hk, lookupS, lookupS]
      have : ¬ ((p.1, v).1 = k2) := by simp; rw [hk]; exact fun he => hne he.symm
      rw [if_neg this]
      have hp2 : ¬ (p.1 = k2) := by rw [hk]; exact fun he => hne he.symm
      rw [if_neg hp2]
    · rw [if_neg hk, lookupS, lookupS]
      by_cases hp2 : p.1 = k2
      · rw [if_pos hp2, if_pos hp2]
      · rw [if_neg hp2, if_neg hp2]
        exact ih

theorem pbFold_run :
    ∀ {rs processed : List Race} {acc m : List (String × PBEntry)},
    (∀ ev, lookupS ev acc =
      (runMin none (processed.filter (fun r => decide (r.event = ev)))).map pbData) →
    (∀ r ∈ processed, ∃ q, time_to_seconds r.time = some q) →
    pbFold acc rs = some m →
    (∀ ev, lookupS ev m =
       (runMin none ((processed ++ rs).filter (fun r => decide (r.event = ev)))).map pbData)
    ∧ (∀ r ∈ processed ++ rs, ∃ q, time_to_seconds r.time = some q) := by
  intro rs
  induction rs with
  | nil =>
    intro processed acc m hinv hpar h
    rw [pbFold] at h
    rw [Option.some.injEq] at h
    subst h
    simp only [List.append_nil]
    exact ⟨hinv, hpar⟩
  | cons r rest ih =>
    intro processed acc m hinv hpar h
    rw [pbFold] at h
    cases ht : time_to_seconds r.time with
    | none => rw [ht] at h; simp at h
    | some q =>
      rw [ht, Option.some_bind] at h
      have hstep : ∀ (acc2 : List (String × PBEntry)),
          (∀ ev, lookupS ev acc2 =
            (runMin none ((processed ++ [r]).filter (fun x => decide (x.event = ev)))).map pbData) →
          pbFold acc2 rest = some m →
          (∀ ev, lookupS ev m =
            (runMin none ((processed ++ r :: rest).filter (fun x => decide (x.event = ev)))).map
              pbData)
          ∧ (∀ x ∈ processed ++ r :: rest, ∃ q2, time_to_seconds x.time = some q2) := by
        intro acc2 hinv2 h2
        have hpar2 : ∀ x ∈ processed ++ [r], ∃ q2, time_to_seconds x.time = some q2 := by
          intro x hx
          rcases List.mem_append.mp hx with h3 | h3
          · exact hpar x h3
          · simp at h3
            exact ⟨q, h3 ▸ ht⟩
        obtain ⟨ha, hb⟩ := ih hinv2 hpar2 h2
        constructor
        · intro ev
          have := ha ev
          rw [List.append_assoc] at this
          simpa using this
        · intro x hx
          refine hb x ?_
          rw [List.append_assoc]
          simpa using hx
      cases hl : lookupS r.event acc with
      | none =>
        rw [hl] at h
        refine hstep _ ?_ h
        intro ev
        rw [List.filter_append]
        by_cases hev : r.event = ev
        · have hacc : lookupS ev acc = none := by rw [← hev]; exact hl
          have hrm : runMin none (processed.filter (fun x => decide (x.event = ev))) = none := by
            have := hinv ev
            rw [hacc] at this
            cases hr2 : runMin none (processed.filter (fun x => decide (x.event = ev))) with
            | none => rfl
            | some b => rw [hr2] at this; simp at this
          have hpf : processed.filter (fun x => decide (x.event = ev)) = [] :=
            runMin_none_nil hrm
          rw [hpf]
          rw [lookupS_append_none hacc]
          rw [show List.filter (fun x => decide (x.event = ev)) [r] = [r] from by
            simp [List.filter, hev]]
          rw [show lookupS ev [(r.event, pbData r)] = some (pbData r) from by
            rw [lookupS, if_pos hev]]
          rfl
        · have hfr : List.filter (fun x => decide (x.event = ev)) [r] = [] := by
            simp [List.filter, hev]
          rw [hfr, List.append_nil]
          have : lookupS ev (acc ++ [(r.event, pbData r)]) = lookupS ev acc := by
            cases hla : lookupS ev acc with
            | none =>
              rw [lookupS_append_none hla]
              rw [lookupS, if_neg hev, lookupS]
            | some v => rw [lookupS_append_some hla]
          rw [this]
          exact hinv ev
      | some pb =>
        rw [hl] at h
        dsimp only at h
        cases htp : time_to_seconds pb.time with
        | none => rw [htp] at h; simp at h
        | some pbq =>
          rw [htp, Option.some_bind] at h
          have hex : ∃ b, runMin none (processed.filter (fun x => decide (x.event = r.event)))
              = some b ∧ pb = pbData b := by
            have := hinv r.event
            rw [hl] at this
            cases hr2 : runMin none (processed.filter (fun x => decide (x.event = r.event))) with
            | none => rw [hr2] at this; simp at this
            | some b =>
              rw [hr2] at this
              rw [show Option.map pbData (some b) = some (pbData b) from rfl] at this
              rw [Option.some.injEq] at this
              exact ⟨b, rfl, this⟩
          obtain ⟨b, hb, hpb⟩ := hex
          have hbkey : qkey b = pbq := by
            rw [qkey]
            have : b.time = pb.time := by rw [hpb]; rfl
            rw [this, htp]
            rfl
          have hrkey : qkey r = q := by rw [qkey, ht]; rfl
          by_cases hq2 : q < pbq
          · rw [if_pos hq2] at h
            refine hstep _ ?_ h
            intro ev
            rw [List.filter_append]
            by_cases hev : r.event = ev
            · have hfr : List.filter (fun x => decide (x.event = ev)) [r] = [r] := by
                simp [List.filter, hev]
              rw [hfr]
              have hbev : runMin none (processed.filter (fun x => decide (x.event = ev)))
                  = some b := by rw [← hev]; exact hb
              rw [runMin_append_one, hbev]
              have : qkey r < qkey b := by rw [hrkey, hbkey]; exact hq2
              rw [show (match some b with
                  | none => some r
                  | some b2 => if qkey r < qkey b2 then some r else some b2) =
                  if qkey r < qkey b then some r else some b from rfl]
              rw [if_pos this]
              rw [← hev]
              exact lookupS_overwriteS_self hl
            · have hfr : List.filter (fun x => decide (x.event = ev)) [r] = [] := by
                simp [List.filter, hev]
              rw [hfr, List.append_nil]
              rw [lookupS_overwriteS_other (fun he => hev he.symm)]
              exact hinv ev
          · rw [if_neg hq2] at h
            refine hstep _ ?_ h
            intro ev
            rw [List.filter_append]
            by_cases hev : r.event = ev
            · have hfr : List.filter (fun x => decide (x.event = ev)) [r] = [r] := by
                simp [List.filter, hev]
              rw [hfr]
              have hbev : runMin none (processed.filter (fun x => decide (x.event = ev)))
                  = some b := by rw [← hev]; exact hb
              rw [runMin_append_one, hbev]
              have : ¬ qkey r < qkey b := by rw [hrkey, hbkey]; exact hq2
              rw [show (match some b with
                  | none => some r
                  | some b2 => if qkey r < qkey b2 then some r else some b2) =
                  if qkey r < qkey b then some r else some b from rfl]
              rw [if_neg this]
              have hsh : lookupS ev acc = some pb := by rw [← hev]; exact hl
              rw [hsh, hpb]
              rfl
            · have hfr : List.filter (fun x => decide (x.event = ev)) [r] = [] := by
                simp [List.filter, hev]
              rw [hfr, List.append_nil]
              exact hinv ev

/-- C4: a pbs response is empty exactly when the swimmer has no races;
otherwise every race of the swimmer has a parseable time and, for every
event, the mapping holds exactly the time/meet/date of the race selected
by seeding with the first race of that event in ledger order and replacing
only on a strictly smaller parsed time (ties keep the earlier race), which
by runMin_le is a per-event minimum; the result is recomputed from the
ledger alone, so it is the same on every call without intervening writes. -/
theorem personal_bests_min (sid : ℤ) (races : List Race) (m : List (String × PBEntry))
    (h : get_personal_bests sid races = some m) :
    (races.filter (fun r => decide (r.swimmer_id = sid)) = [] → m = [])
    ∧ (∀ r ∈ races.filter (fun r => decide (r.swimmer_id = sid)),
        ∃ q, time_to_seconds r.time = some q)
    ∧ (∀ ev, lookupS ev m =
        (runMin none ((races.filter (fun r => decide (r.swimmer_id = sid))).filter
          (fun r => decide (r.event = ev)))).map pbData)
    ∧ (∀ ev b, runMin none ((races.filter (fun r => decide (r.swimmer_id = sid))).filter
          (fun r => decide (r.event = ev))) = some b →
        b ∈ (races.filter (fun r => decide (r.swimmer_id = sid))).filter
          (fun r => decide (r.event = ev))
        ∧ ∀ x ∈ (races.filter (fun r => decide (r.swimmer_id = sid))).filter
            (fun r => decide (r.event = ev)), qkey b ≤ qkey x) := by
  rw [get_personal_bests] at h
  by_cases hsw : races.filter (fun r => decide (r.swimmer_id = sid)) = []
  · rw [if_pos hsw] at h
    rw [Option.some.injEq] at h
    subst h
    refine ⟨fun _ => rfl, ?_, ?_, ?_⟩
    · intro r hr
      rw [hsw] at hr
      simp at hr
    · intro ev
      rw [hsw]
      rfl
    · intro ev b hrm
      rw [hsw] at hrm
      rw [show runMin none (List.filter (fun r => decide (r.event = ev)) []) = none from rfl]
        at hrm
      simp at hrm
  · rw [if_neg hsw] at h
    have hinv : ∀ ev, lookupS ev ([] : List (String × PBEntry)) =
        (runMin none (([] : List Race).filter (fun r => decide (r.event = ev)))).map pbData := by
      intro ev
      rfl
    have hpar : ∀ r ∈ ([] : List Race), ∃ q, time_to_seconds r.time = some q := by
      intro r hr
      simp at hr
    obtain ⟨ha, hb⟩ := pbFold_run hinv hpar h
    refine ⟨fun hc => absurd hc hsw, ?_, ?_, ?_⟩
    · intro r hr
      refine hb r ?_
      simpa using hr
    · intro ev
      have := ha ev
      simpa using this
    · intro ev b hrm
      obtain ⟨h1, _⟩ := runMin_le hrm
      have hmem : b ∈ (races.filter (fun r => decide (r.swimmer_id = sid))).filter
          (fun r => decide (r.event = ev)) := by
        rcases runMin_mem hrm with h2 | h2
        · exact h2
        · simp at h2
      exact ⟨hmem, h1⟩

def wpbRace1 : Race :=
  { id := 1, swimmer_id := 7, event := "50free", time := "25.50", meet_id := 1,
    meet_name := some "Winter", date := some "2026-01-15", isPB := true }

def wpbRace2 : Race :=
  { id := 2, swimmer_id := 7, event := "50free", time := "24.80", meet_id := 2,
    meet_name := some "Spring", date := some "2026-03-15", isPB := true }

/-- C4 witness: two races in one event, the later one faster, give a
single-event mapping holding the later race's data. -/
theorem personal_bests_min_witness :
    get_personal_bests 7 [wpbRace1, wpbRace2] =
      some [("50free", { time := "24.80", meet := "Spring", date := "2026-03-15" })]
    ∧ (([wpbRace1, wpbRace2].filter (fun r => decide (r.swimmer_id = 7)) = []) →
        [("50free",
          ({ time := "24.80", meet := "Spring", date := "2026-03-15" } : PBEntry))] = []) := by
  have h : get_personal_bests 7 [wpbRace1, wpbRace2] =
      some [("50free", { time := "24.80", meet := "Spring", date := "2026-03-15" })] := by
    simp [get_personal_bests, pbFold, lookupS, overwriteS, pbData, wpbRace1, wpbRace2,
      time_to_seconds, timeToSecondsChars, splitOnChar, parseIntChars, parseFloatChars,
      parseUFloatChars, digitsVal]
    norm_num
  exact ⟨h, (personal_bests_min 7 [wpbRace1, wpbRace2] _ h).1⟩

/-! ### C10: deleting a swimmer leaves the ledger untouched -/

theorem findSwimmer_none_of_not_mem {sid : ℤ} :
    ∀ {ss : List Swimmer}, sid ∉ ss.map (fun s => s.id) → findSwimmer sid ss = none := by
  intro ss
  induction ss with
  | nil => intro _; rfl
  | cons s rest ih =>
    intro h
    rw [List.map_cons] at h
    rw [findSwimmer]
    have hs : ¬ s.id = sid := fun he => h (he ▸ List.mem_cons_self _ _)
    rw [if_neg hs]
    exact ih (fun hm => h (List.mem_cons_of_mem _ hm))

theorem findSwimmer_none_after_delete {sid : ℤ} :
    ∀ {ss ss2 : List Swimmer}, (ss.map (fun s => s.id)).Nodup →
    deleteFirst sid ss = some ss2 → findSwimmer sid ss2 = none := by
  intro ss
  induction ss with
  | nil => intro ss2 _ h; simp [deleteFirst] at h
  | cons s rest ih =>
    intro ss2 hnd h
    rw [List.map_cons] at hnd
    obtain ⟨hs, hrest⟩ := List.nodup_cons.mp hnd
    by_cases hid : s.id = sid
    · rw [deleteFirst, if_pos hid] at h
      rw [Option.some.injEq] at h
      subst h
      refine findSwimmer_none_of_not_mem ?_
      rw [← hid]
      exact hs
    · rw [deleteFirst, if_neg hid] at h
      cases hrec : deleteFirst sid rest with
      | none => rw [hrec] at h; simp at h
      | some l2 =>
        rw [hrec] at h
        have h9 : some (s :: l2) = some ss2 := h
        rw [Option.some.injEq] at h9
        subst h9
        rw [findSwimmer, if_neg hid]
        exact ih hrest hrec

/-- C10: a successful DELETE of a swimmer id from a duplicate-free registry
changes only the registry: the ledger is identical, so the deleted
swimmer's races are still there, race listing with any filters and
personal bests are unchanged, while every entry of any subsequent
rankings response belongs to some still-registered swimmer and in
particular never to the deleted id. -/
theorem delete_preserves_ledger (sid : ℤ) (st st2 : ApiState) (resp : Except ApiError String)
    (hnd : (st.swimmers.map (fun s => s.id)).Nodup)
    (h : deleteSwimmerState sid st = (resp, st2)) (hok : ∃ msg, resp = .ok msg) :
    st2.races = st.races
    ∧ st2.races.filter (fun r => decide (r.swimmer_id = sid)) =
        st.races.filter (fun r => decide (r.swimmer_id = sid))
    ∧ (∀ ev mid sw, listRaces ev mid sw st2.races = listRaces ev mid sw st.races)
    ∧ (∀ s2, get_personal_bests s2 st2.races = get_personal_bests s2 st.races)
    ∧ (∀ ev g ag l, get_rankings ev g ag st2.swimmers st2.races = .ok l →
        ∀ e ∈ l, e.swimmer_id ≠ sid) := by
  obtain ⟨msg, hmsg⟩ := hok
  subst hmsg
  rw [deleteSwimmerState] at h
  cases hf : deleteFirst sid st.swimmers with
  | none =>
    rw [deleteSwimmer, hf] at h
    dsimp only at h
    rw [Prod.mk.injEq] at h
    exact absurd h.1 (by simp)
  | some ss2 =>
    rw [deleteSwimmer, hf] at h
    dsimp only at h
    rw [Prod.mk.injEq] at h
    obtain ⟨_, h2⟩ := h
    subst h2
    refine ⟨rfl, rfl, fun _ _ _ => rfl, fun _ => rfl, ?_⟩
    intro ev g ag l hrk e he hesid
    have hfind : findSwimmer sid ss2 = none := findSwimmer_none_after_delete hnd hf
    rw [get_rankings] at hrk
    by_cases het : optTruthy ev
    · rw [if_pos het] at hrk
      dsimp only at hrk
      cases hbt : bestTimesFold []
          (List.filter (fun r => decide (r.event = ev.getD "")) st.races) with
      | none => rw [hbt] at hrk; simp at hrk
      | some bts =>
        rw [hbt] at hrk
        rw [Except.ok.injEq] at hrk
        subst hrk
        obtain ⟨y, hy, _, hysid⟩ := assignRanks_mem he
        have hy2 := mem_sortEntries.mp hy
        obtain ⟨sid2, bt, s, _, hfs, hsid2, _⟩ := mem_buildEntries hy2
        rw [hesid] at hysid
        have hcontra : findSwimmer sid ss2 = some s := by rw [hysid, hsid2]; exact hfs
        rw [hfind] at hcontra
        exact Option.noConfusion hcontra
    · rw [if_neg het] at hrk
      simp at hrk

def wStateBefore : ApiState := { swimmers := [wAlex], races := [wRace] }

def wStateAfter : ApiState := { swimmers := [], races := [wRace] }

/-- C10 witness: deleting the only swimmer keeps their race in the ledger
and excludes them from rankings. -/
theorem delete_preserves_ledger_witness :
    deleteSwimmerState 7 wStateBefore = (.ok "Swimmer deleted", wStateAfter)
    ∧ (wStateAfter.races = wStateBefore.races
       ∧ wStateAfter.races.filter (fun r => decide (r.swimmer_id = 7)) =
           wStateBefore.races.filter (fun r => decide (r.swimmer_id = 7))
       ∧ (∀ ev mid sw, listRaces ev mid sw wStateAfter.races =
           listRaces ev mid sw wStateBefore.races)
       ∧ (∀ s2, get_personal_bests s2 wStateAfter.races =
           get_personal_bests s2 wStateBefore.races)
       ∧ (∀ ev g ag l, get_rankings ev g ag wStateAfter.swimmers wStateAfter.races = .ok l →
           ∀ e ∈ l, e.swimmer_id ≠ 7)) := by
  have h : deleteSwimmerState 7 wStateBefore = (.ok "Swimmer deleted", wStateAfter) := rfl
  exact ⟨h, delete_preserves_ledger 7 wStateBefore wStateAfter _ (by decide) h
    ⟨"Swimmer deleted", rfl⟩⟩
end SwimMeet
